import Mathlib

/-!
Verification development for the steady-state heat-equation finite-element
engine behind `docs/examples/01_Steady_State_Heat.ipynb`.

The repository ships only the driving notebook; the engine itself
(StructuredMesh, FieldStorage, ElementAssembler, GlobalSystemBuilder,
BoundaryConditionEnforcer, LinearSolver, IntegralEvaluator) is described by the
specification.  Each engine component is therefore modelled here from the
specification's words, in exact rational arithmetic: `ℚ` stands in for IEEE
doubles, so "within floating-point / solver tolerance" is rendered as exact
equality, and the spec's relational solver contract (`solve` returns a vector
satisfying `system·x = RHS` to tolerance) is rendered as the predicate
`SolvesSystem`.
-/

namespace HeatFE

/-- Modelled from the spec (§7): the engine's typed error kinds.  The source
repository does not contain the engine, so the error vocabulary is taken
verbatim from the specification's error-handling design. -/
inductive EngineError where
  | invalidResolution
  | invalidDomain
  | degenerateElement
  | unknownDof
  | singularSystem
  | convergence
deriving DecidableEq

/-- Modelled from the spec (§3, §4.1): a structured rectangular mesh is
determined by its domain bounds and grid resolution; node coordinates and
element connectivity are derived from these by uniform subdivision with
row-major orderings. -/
structure Mesh where
  resX : ℕ
  resY : ℕ
  minX : ℚ
  minY : ℚ
  maxX : ℚ
  maxY : ℚ
deriving DecidableEq

/-- Number of nodes: `(resX+1)·(resY+1)` grid points. -/
def Mesh.nodeCount (m : Mesh) : ℕ := (m.resX + 1) * (m.resY + 1)

/-- Number of quadrilateral elements: `resX·resY`. -/
def Mesh.elemCount (m : Mesh) : ℕ := m.resX * m.resY

/-- Horizontal node spacing. -/
def Mesh.hx (m : Mesh) : ℚ := (m.maxX - m.minX) / m.resX

/-- Vertical node spacing. -/
def Mesh.hy (m : Mesh) : ℚ := (m.maxY - m.minY) / m.resY

/-- Coordinates of node `n`; nodes are numbered row-major, bottom row first. -/
def Mesh.coord (m : Mesh) (n : ℕ) : ℚ × ℚ :=
  (m.minX + ((n % (m.resX + 1) : ℕ) : ℚ) * m.hx,
   m.minY + ((n / (m.resX + 1) : ℕ) : ℚ) * m.hy)

/-- Global node index of local corner `i` of element `e`.  Elements are
numbered row-major; local corners run anticlockwise from the bottom-left. -/
def Mesh.elemNode (m : Mesh) (e : ℕ) (i : Fin 4) : ℕ :=
  let ex := e % m.resX
  let ey := e / m.resX
  let base := ey * (m.resX + 1) + ex
  match i with
  | 0 => base
  | 1 => base + 1
  | 2 => base + m.resX + 2
  | 3 => base + m.resX + 1

/-- The ordered sequence of node coordinates (spec §3 data model). -/
def Mesh.nodes (m : Mesh) : List (ℚ × ℚ) := (List.range m.nodeCount).map m.coord

/-- The ordered sequence of elements, each an ordered tuple of its four corner
node indices (spec §3 data model). -/
def Mesh.elems (m : Mesh) : List (List ℕ) :=
  (List.range m.elemCount).map fun e =>
    [m.elemNode e 0, m.elemNode e 1, m.elemNode e 2, m.elemNode e 3]

/-- Special set of the bottom edge: all nodes with row index 0. -/
def Mesh.bottomSet (m : Mesh) : Finset ℕ := Finset.range (m.resX + 1)

/-- Special set of the top edge: all nodes with row index `resY`. -/
def Mesh.topSet (m : Mesh) : Finset ℕ :=
  (Finset.range (m.resX + 1)).image fun i => m.resY * (m.resX + 1) + i

/-- Modelled from the spec (§4.1): `build` constructs the structured mesh,
failing with `InvalidResolutionError` if a resolution component is non-positive
and with `InvalidDomainError` if the domain box is empty in some axis.  The
spec lists the resolution check first, so it takes precedence on inputs that
violate both conditions. -/
def StructuredMesh.build (minX minY maxX maxY : ℚ) (resX resY : ℕ) :
    Except EngineError Mesh :=
  if resX = 0 ∨ resY = 0 then .error .invalidResolution
  else if maxX ≤ minX ∨ maxY ≤ minY then .error .invalidDomain
  else .ok ⟨resX, resY, minX, minY, maxX, maxY⟩

/-! ## Quadrature and bilinear basis -/

/-- Modelled from the spec (§3 QuadratureRule): a fixed, shared set of
reference-coordinate/weight triples `(ξ, η, w)`, used identically for every
element by both assembly and integration.  This exact-arithmetic model uses the
2×2 tensor-product rule with rational abscissae `±1/2` and unit weights in
place of the irrational Gauss abscissae; the spec fixes only that one rule is
shared by all element computations. -/
def quadRule : List (ℚ × ℚ × ℚ) :=
  [(-1/2, -1/2, 1), (1/2, -1/2, 1), (1/2, 1/2, 1), (-1/2, 1/2, 1)]

/-- Reference-square corner signs of the four bilinear basis functions. -/
def cornerSign : Fin 4 → ℚ × ℚ
  | 0 => (-1, -1)
  | 1 => (1, -1)
  | 2 => (1, 1)
  | 3 => (-1, 1)

/-- Bilinear shape function `N_i` on the reference square `[-1,1]²`. -/
def shapeN (i : Fin 4) (ξ η : ℚ) : ℚ :=
  (1 + (cornerSign i).1 * ξ) * (1 + (cornerSign i).2 * η) / 4

/-- Reference derivative `∂N_i/∂ξ`. -/
def shapeDXi (i : Fin 4) (η : ℚ) : ℚ := (cornerSign i).1 * (1 + (cornerSign i).2 * η) / 4

/-- Reference derivative `∂N_i/∂η`. -/
def shapeDEta (i : Fin 4) (ξ : ℚ) : ℚ := (cornerSign i).2 * (1 + (cornerSign i).1 * ξ) / 4

/-- Jacobian `((x_ξ, y_ξ), (x_η, y_η))` of the reference-to-physical bilinear
map of element `e`, evaluated at reference point `(ξ, η)`. -/
def Mesh.jac (m : Mesh) (e : ℕ) (ξ η : ℚ) : (ℚ × ℚ) × (ℚ × ℚ) :=
  ((∑ i : Fin 4, shapeDXi i η * (m.coord (m.elemNode e i)).1,
    ∑ i : Fin 4, shapeDXi i η * (m.coord (m.elemNode e i)).2),
   (∑ i : Fin 4, shapeDEta i ξ * (m.coord (m.elemNode e i)).1,
    ∑ i : Fin 4, shapeDEta i ξ * (m.coord (m.elemNode e i)).2))

/-- Jacobian determinant `|J|` of element `e` at reference point `(ξ, η)`. -/
def Mesh.detJ (m : Mesh) (e : ℕ) (ξ η : ℚ) : ℚ :=
  let J := m.jac e ξ η
  J.1.1 * J.2.2 - J.1.2 * J.2.1

/-- Physical position of reference point `(ξ, η)` inside element `e`. -/
def Mesh.physPt (m : Mesh) (e : ℕ) (ξ η : ℚ) : ℚ × ℚ :=
  (∑ i : Fin 4, shapeN i ξ η * (m.coord (m.elemNode e i)).1,
   ∑ i : Fin 4, shapeN i ξ η * (m.coord (m.elemNode e i)).2)

/-- Physical gradient `(∂N_i/∂x, ∂N_i/∂y)` via the inverse Jacobian. -/
def Mesh.gradN (m : Mesh) (e : ℕ) (i : Fin 4) (ξ η : ℚ) : ℚ × ℚ :=
  let J := m.jac e ξ η
  let d := m.detJ e ξ η
  ((J.2.2 * shapeDXi i η - J.1.2 * shapeDEta i ξ) / d,
   (-J.2.1 * shapeDXi i η + J.1.1 * shapeDEta i ξ) / d)

/-! ## Element assembly -/

/-- Modelled from the spec (§4.3 ElementAssembler): entry `(i,j)` of the local
stiffness matrix, `Σ_q w_q · coefficient(x_q) · (∇N_i(x_q)·∇N_j(x_q)) · |J(x_q)|`. -/
def localK (m : Mesh) (coeff : ℚ × ℚ → ℚ) (e : ℕ) (i j : Fin 4) : ℚ :=
  (quadRule.map fun q =>
    let gi := m.gradN e i q.1 q.2.1
    let gj := m.gradN e j q.1 q.2.1
    q.2.2 * coeff (m.physPt e q.1 q.2.1) * (gi.1 * gj.1 + gi.2 * gj.2) *
      m.detJ e q.1 q.2.1).sum

/-- Modelled from the spec (§4.3): entry `i` of the local load vector,
`Σ_q w_q · source(x_q) · N_i(x_q) · |J(x_q)|`. -/
def localF (m : Mesh) (source : ℚ × ℚ → ℚ) (e : ℕ) (i : Fin 4) : ℚ :=
  (quadRule.map fun q =>
    q.2.2 * source (m.physPt e q.1 q.2.1) * shapeN i q.1 q.2.1 *
      m.detJ e q.1 q.2.1).sum

/-- Modelled from the spec (§4.3): `assembleElement` returns the local
stiffness matrix and load vector, failing with `DegenerateElementError` when
`|J(x_q)| ≤ 0` at some quadrature point. -/
def assembleElement (m : Mesh) (coeff source : ℚ × ℚ → ℚ) (e : ℕ) :
    Except EngineError ((Fin 4 → Fin 4 → ℚ) × (Fin 4 → ℚ)) :=
  if _h : ∀ q ∈ quadRule, 0 < m.detJ e q.1 q.2.1 then
    .ok (localK m coeff e, localF m source e)
  else .error .degenerateElement

/-! ## Global assembly -/

/-- Modelled from the spec (§3 LinearSystem): a square system of size `n` with
matrix `A` and right-hand side `b`. -/
structure LinSys where
  n : ℕ
  A : ℕ → ℕ → ℚ
  b : ℕ → ℚ

/-- Modelled from the spec (§4.4 GlobalSystemBuilder): entry `(r,c)` of the
global matrix, the scatter-added sum of all local stiffness entries whose
local-to-global images are `(r,c)`. -/
def globalK (m : Mesh) (coeff : ℚ × ℚ → ℚ) (r c : ℕ) : ℚ :=
  ∑ e ∈ Finset.range m.elemCount, ∑ i : Fin 4, ∑ j : Fin 4,
    if m.elemNode e i = r ∧ m.elemNode e j = c then localK m coeff e i j else 0

/-- Modelled from the spec (§4.4): entry `r` of the global load vector. -/
def globalF (m : Mesh) (source : ℚ × ℚ → ℚ) (r : ℕ) : ℚ :=
  ∑ e ∈ Finset.range m.elemCount, ∑ i : Fin 4,
    if m.elemNode e i = r then localF m source e i else 0

/-- Modelled from the spec (§4.4): the fully assembled, unconstrained system. -/
def assembleSystem (m : Mesh) (coeff source : ℚ × ℚ → ℚ) : LinSys :=
  ⟨m.nodeCount, globalK m coeff, globalF m source⟩

/-! ## Dirichlet boundary conditions -/

/-- Modelled from the spec (§3 BoundarySpecification): a set of constrained
DOF indices together with a prescribed value for each. -/
structure BoundarySpec where
  dofs : Finset ℕ
  val : ℕ → ℚ

/-- Modelled from the notebook driver (`uw.conditions.DirichletCondition`):
the condition object carries only the constrained index sets; prescribed
values live in the field's storage. -/
structure DirichletCondition where
  indexSets : Finset ℕ

/-- The boundary specification a solve derives from a `DirichletCondition`:
the prescribed values are the field's stored values at the constrained
indices immediately before the solve. -/
def DirichletCondition.toSpec (bc : DirichletCondition) (field : ℕ → ℚ) :
    BoundarySpec :=
  ⟨bc.indexSets, field⟩

/-- The closed form of the spec's §4.5 elimination technique applied to the
whole constrained set: constrained rows and columns are zeroed apart from a
unit diagonal, constrained right-hand-side entries become the prescribed
values, and each unconstrained right-hand-side entry has
`Σ_d A[r][d]·v_d` over constrained `d` subtracted.  (Processing the
constrained DOFs one at a time as §4.5 describes reaches this same closed
form, because each step (b) zeroes the processed row before any later
step (a) can subtract from its right-hand side.) -/
def dirichletSystem (sys : LinSys) (bc : BoundarySpec) : LinSys where
  n := sys.n
  A r c :=
    if r ∈ bc.dofs then (if c = r then 1 else 0)
    else if c ∈ bc.dofs then 0 else sys.A r c
  b r :=
    if r ∈ bc.dofs then bc.val r
    else sys.b r - ∑ c ∈ Finset.range sys.n,
      (if c ∈ bc.dofs then sys.A r c * bc.val c else 0)

/-- Modelled from the spec (§4.5 BoundaryConditionEnforcer): `applyDirichlet`
constrains the assembled system, failing with `UnknownDofError` when the
specification references a DOF outside the system's index space. -/
def applyDirichlet (sys : LinSys) (bc : BoundarySpec) : Except EngineError LinSys :=
  if bc.dofs ⊆ Finset.range sys.n then .ok (dirichletSystem sys bc)
  else .error .unknownDof

/-! ## Linear solve -/

/-- Matrix-vector product row `r` of a system's matrix against `x`. -/
def matvec (sys : LinSys) (x : ℕ → ℚ) (r : ℕ) : ℚ :=
  ∑ c ∈ Finset.range sys.n, sys.A r c * x c

/-- Modelled from the spec (§4.6 LinearSolver): the solver's postcondition —
the returned DOF-value vector satisfies `system·x = RHS` (exact arithmetic
standing in for the residual tolerance).  The spec deliberately does not fix
the algorithm, so claims about solved values quantify over every vector
meeting this contract. -/
def SolvesSystem (sys : LinSys) (x : ℕ → ℚ) : Prop :=
  ∀ r < sys.n, matvec sys x r = sys.b r

/-- Modelled from the spec (§4.6): the solver writes the result back into the
originating field's storage at the corresponding DOF indices. -/
def writeback (n : ℕ) (x field : ℕ → ℚ) : ℕ → ℚ :=
  fun i => if i < n then x i else field i

/-- Select the first row of an augmented matrix whose leading entry is a
usable (non-zero) pivot, returning it together with the remaining rows in
their original order. -/
def pickPivot : List (List ℚ) → Option (List ℚ × List (List ℚ))
  | [] => none
  | r :: rs =>
    if r.headD 0 ≠ 0 then some (r, rs)
    else
      match pickPivot rs with
      | none => none
      | some (p, rest) => some (p, r :: rest)

theorem pickPivot_length :
    ∀ rows p rest, pickPivot rows = some (p, rest) → rest.length + 1 = rows.length := by
  intro rows
  induction rows with
  | nil => intro p rest h; simp [pickPivot] at h
  | cons r rs ih =>
    intro p rest h
    rw [pickPivot] at h
    by_cases hr : r.headD 0 = 0
    · rw [if_neg (not_not_intro hr)] at h
      cases hrec : pickPivot rs with
      | none => rw [hrec] at h; exact absurd h (by simp)
      | some pr =>
        obtain ⟨q, qrest⟩ := pr
        rw [hrec] at h
        have h1 : q = p ∧ r :: qrest = rest := by
          constructor <;> [exact congrArg Prod.fst (Option.some.inj h);
            exact congrArg Prod.snd (Option.some.inj h)]
        have := ih q qrest hrec
        rw [← h1.2]
        simp only [List.length_cons]
        omega
    · rw [if_pos hr] at h
      have h2 : rs = rest := congrArg Prod.snd (Option.some.inj h)
      rw [← h2]
      simp

/-- One elimination step: subtract the pivot-scaled pivot row from `row` and
drop the leading column. -/
def elimRow (p row : List ℚ) : List ℚ :=
  List.zipWith (fun a b => a - (row.headD 0 / p.headD 0) * b) row.tail p.tail

/-- Modelled from the spec (§4.6): forward elimination of a factorization-based
solver; a column with no usable pivot means the matrix was detected singular
(`SingularSystemError` via a zero pivot). -/
def forwardElim (rows : List (List ℚ)) : Except EngineError (List (List ℚ)) :=
  match _hp : pickPivot rows with
  | none => if rows.isEmpty then .ok [] else .error .singularSystem
  | some (p, rest) =>
    match forwardElim (rest.map (elimRow p)) with
    | .error e => .error e
    | .ok tri => .ok (p :: tri)
termination_by rows.length
decreasing_by
  have := pickPivot_length rows p rest _hp
  simp only [List.length_map]
  omega

/-- Back substitution over the triangular rows produced by `forwardElim`. -/
def backSub : List (List ℚ) → List ℚ
  | [] => []
  | row :: rest =>
    let xs := backSub rest
    let tl := row.tail
    ((tl.getLastD 0 - (List.zipWith (fun a b => a * b) tl.dropLast xs).sum) /
      row.headD 0) :: xs

/-- The dense augmented matrix `[A | b]` of a system. -/
def LinSys.augmented (sys : LinSys) : List (List ℚ) :=
  (List.range sys.n).map fun r =>
    ((List.range sys.n).map fun c => sys.A r c) ++ [sys.b r]

/-- Modelled from the spec (§4.6): a concrete direct solver — Gaussian
elimination with back substitution — which fails with `SingularSystemError`
when factorization hits a zero pivot. -/
def geSolve (sys : LinSys) : Except EngineError (List ℚ) :=
  match forwardElim sys.augmented with
  | .error e => .error e
  | .ok tri => .ok (backSub tri)

/-! ## Integral evaluator -/

/-- Field value interpolated to reference point `(ξ, η)` of element `e`. -/
def interpAt (m : Mesh) (field : ℕ → ℚ) (e : ℕ) (ξ η : ℚ) : ℚ :=
  ∑ i : Fin 4, shapeN i ξ η * field (m.elemNode e i)

/-- Modelled from the spec (§4.7 IntegralEvaluator): the domain integral
`Σ_e Σ_q w_q · field(x_q) · |J(x_q)|` of a nodal field, using the same
quadrature rule and basis interpolation as assembly. -/
def integrate (m : Mesh) (field : ℕ → ℚ) : ℚ :=
  ∑ e ∈ Finset.range m.elemCount,
    (quadRule.map fun q => q.2.2 * interpAt m field e q.1 q.2.1 *
      m.detJ e q.1 q.2.1).sum

/-! ## Constant coefficient and source functions used by the notebook -/

/-- The notebook's constant diffusivity `fn_diffusivity = 1.0`. -/
def oneFn : ℚ × ℚ → ℚ := fun _ => 1

/-- The notebook's (implicit) zero source term. -/
def zeroFn : ℚ × ℚ → ℚ := fun _ => 0

/-! ## Mesh index arithmetic -/

theorem Mesh.elemNode_lt (m : Mesh) (hrx : 0 < m.resX) {e : ℕ}
    (he : e < m.elemCount) (i : Fin 4) : m.elemNode e i < m.nodeCount := by
  have hex : e % m.resX < m.resX := Nat.mod_lt _ hrx
  have hey : e / m.resX < m.resY := by
    rw [Nat.div_lt_iff_lt_mul hrx]
    calc e < m.elemCount := he
    _ = m.resY * m.resX := Nat.mul_comm _ _
  have hmul : (e / m.resX + 2) * (m.resX + 1) ≤ (m.resY + 1) * (m.resX + 1) :=
    Nat.mul_le_mul_right _ (by omega)
  have hnc : m.nodeCount = (m.resY + 1) * (m.resX + 1) := by
    rw [Mesh.nodeCount]; ring
  rw [hnc]
  fin_cases i <;> simp only [Mesh.elemNode] <;> nlinarith [hex, hmul]

theorem Mesh.coord_closed (m : Mesh) {i : ℕ} (j : ℕ) (hi : i < m.resX + 1) :
    m.coord (j * (m.resX + 1) + i) =
      (m.minX + (i : ℚ) * m.hx, m.minY + (j : ℚ) * m.hy) := by
  have h1 : (j * (m.resX + 1) + i) % (m.resX + 1) = i := by
    rw [Nat.mul_comm j, Nat.mul_add_mod, Nat.mod_eq_of_lt hi]
  have h2 : (j * (m.resX + 1) + i) / (m.resX + 1) = j := by
    rw [Nat.mul_comm j, Nat.mul_add_div (Nat.succ_pos _), Nat.div_eq_of_lt hi,
      Nat.add_zero]
  rw [Mesh.coord, h1, h2]

/-- Decomposition of an element index into its grid position. -/
theorem Mesh.elemNode_eq (m : Mesh) (e : ℕ) :
    m.elemNode e 0 = (e / m.resX) * (m.resX + 1) + e % m.resX ∧
    m.elemNode e 1 = (e / m.resX) * (m.resX + 1) + (e % m.resX + 1) ∧
    m.elemNode e 2 = (e / m.resX + 1) * (m.resX + 1) + (e % m.resX + 1) ∧
    m.elemNode e 3 = (e / m.resX + 1) * (m.resX + 1) + e % m.resX := by
  refine ⟨rfl, rfl, ?_, ?_⟩ <;> · simp only [Mesh.elemNode]; ring

/-- On every element of a structured mesh the Jacobian is the constant
diagonal map with determinant `hx·hy/4`. -/
theorem Mesh.detJ_eq (m : Mesh) (hrx : 0 < m.resX) (e : ℕ) (ξ η : ℚ) :
    m.detJ e ξ η = m.hx * m.hy / 4 := by
  have hex : e % m.resX < m.resX := Nat.mod_lt _ hrx
  obtain ⟨h0, h1, h2, h3⟩ := m.elemNode_eq e
  have c0 := m.coord_closed (i := e % m.resX) (e / m.resX) (by omega)
  have c1 := m.coord_closed (i := e % m.resX + 1) (e / m.resX) (by omega)
  have c2 := m.coord_closed (i := e % m.resX + 1) (e / m.resX + 1) (by omega)
  have c3 := m.coord_closed (i := e % m.resX) (e / m.resX + 1) (by omega)
  rw [Mesh.detJ, Mesh.jac]
  simp only [Fin.sum_univ_four, h0, h1, h2, h3, c0, c1, c2, c3, shapeDXi,
    shapeDEta, cornerSign]
  push_cast
  ring

/-- The four bilinear shape functions are a partition of unity. -/
theorem shapeN_partition (ξ η : ℚ) : ∑ i : Fin 4, shapeN i ξ η = 1 := by
  simp only [Fin.sum_univ_four, shapeN, cornerSign]
  ring

/-- With a zero source the assembled load vector vanishes. -/
theorem localF_zero (m : Mesh) (e : ℕ) (i : Fin 4) : localF m zeroFn e i = 0 := by
  rw [localF]
  apply List.sum_eq_zero
  intro x hx
  simp only [List.mem_map] at hx
  obtain ⟨q, _, rfl⟩ := hx
  simp [zeroFn]

theorem globalF_zero (m : Mesh) (r : ℕ) : globalF m zeroFn r = 0 := by
  rw [globalF]
  apply Finset.sum_eq_zero
  intro e _
  apply Finset.sum_eq_zero
  intro i _
  rw [localF_zero]
  simp

/-- With a zero diffusivity every local stiffness entry vanishes. -/
theorem localK_zero (m : Mesh) (e : ℕ) (i j : Fin 4) : localK m zeroFn e i j = 0 := by
  rw [localK]
  apply List.sum_eq_zero
  intro x hx
  simp only [List.mem_map] at hx
  obtain ⟨q, _, rfl⟩ := hx
  simp [zeroFn]

theorem globalK_zero (m : Mesh) (r c : ℕ) : globalK m zeroFn r c = 0 := by
  rw [globalK]
  apply Finset.sum_eq_zero
  intro e _
  apply Finset.sum_eq_zero
  intro i _
  apply Finset.sum_eq_zero
  intro j _
  rw [localK_zero]
  simp

/-! ## Scatter-add flattening

The global matrix is a scatter-add of local contributions; sums of its rows
against a vector collapse back to per-element sums over local indices. -/

theorem matvec_globalK (m : Mesh) (coeff : ℚ × ℚ → ℚ) {n : ℕ}
    (hg : ∀ e ∈ Finset.range m.elemCount, ∀ i : Fin 4, m.elemNode e i < n)
    (x : ℕ → ℚ) (r : ℕ) :
    ∑ c ∈ Finset.range n, globalK m coeff r c * x c =
      ∑ e ∈ Finset.range m.elemCount, ∑ i : Fin 4,
        if m.elemNode e i = r then
          ∑ j : Fin 4, localK m coeff e i j * x (m.elemNode e j)
        else 0 := by
  simp only [globalK, Finset.sum_mul]
  rw [Finset.sum_comm]
  refine Finset.sum_congr rfl fun e he => ?_
  rw [Finset.sum_comm]
  refine Finset.sum_congr rfl fun i _ => ?_
  by_cases hir : m.elemNode e i = r
  · simp only [hir, eq_self_iff_true, true_and, if_pos]
    rw [Finset.sum_comm]
    refine Finset.sum_congr rfl fun j _ => ?_
    simp only [ite_mul, zero_mul]
    rw [Finset.sum_ite_eq, if_pos (Finset.mem_range.mpr (hg e he j))]
  · simp only [hir, false_and, if_false, ite_mul, zero_mul]
    simp

theorem quadform_globalK (m : Mesh) (coeff : ℚ × ℚ → ℚ) {n : ℕ}
    (hg : ∀ e ∈ Finset.range m.elemCount, ∀ i : Fin 4, m.elemNode e i < n)
    (v : ℕ → ℚ) :
    (∑ r ∈ Finset.range n, v r * ∑ c ∈ Finset.range n, globalK m coeff r c * v c) =
      ∑ e ∈ Finset.range m.elemCount, ∑ i : Fin 4, ∑ j : Fin 4,
        v (m.elemNode e i) * localK m coeff e i j * v (m.elemNode e j) := by
  have h1 : ∀ r, (∑ c ∈ Finset.range n, globalK m coeff r c * v c) =
      ∑ e ∈ Finset.range m.elemCount, ∑ i : Fin 4,
        if m.elemNode e i = r then
          ∑ j : Fin 4, localK m coeff e i j * v (m.elemNode e j)
        else 0 := fun r => matvec_globalK m coeff hg v r
  simp only [h1, Finset.mul_sum, mul_ite, mul_zero]
  rw [Finset.sum_comm]
  refine Finset.sum_congr rfl fun e he => ?_
  rw [Finset.sum_comm]
  refine Finset.sum_congr rfl fun i _ => ?_
  rw [Finset.sum_ite_eq, if_pos (Finset.mem_range.mpr (hg e he i))]
  refine Finset.sum_congr rfl fun j _ => ?_
  ring

/-! ## Solving a Dirichlet-constrained system -/

theorem matvec_dirichlet_constrained (sys : LinSys) (bc : BoundarySpec)
    (x : ℕ → ℚ) {d : ℕ} (hd : d ∈ bc.dofs) (hdn : d < sys.n) :
    matvec (dirichletSystem sys bc) x d = x d := by
  simp only [matvec, dirichletSystem, if_pos hd, ite_mul, one_mul, zero_mul]
  rw [Finset.sum_ite_eq', if_pos (Finset.mem_range.mpr hdn)]

theorem matvec_dirichlet_unconstrained (sys : LinSys) (bc : BoundarySpec)
    (x : ℕ → ℚ) {r : ℕ} (hr : r ∉ bc.dofs) :
    matvec (dirichletSystem sys bc) x r +
      (∑ c ∈ Finset.range sys.n, if c ∈ bc.dofs then sys.A r c * bc.val c else 0) =
      ∑ c ∈ Finset.range sys.n, sys.A r c *
        (if c ∈ bc.dofs then bc.val c else x c) := by
  simp only [matvec, dirichletSystem, if_neg hr]
  rw [← Finset.sum_add_distrib]
  refine Finset.sum_congr rfl fun c _ => ?_
  by_cases hc : c ∈ bc.dofs <;> simp [hc]

/-- Characterisation of solving the constrained system: constrained DOFs take
their prescribed values, and every unconstrained row satisfies the original
equation with prescribed values substituted at constrained columns. -/
theorem solves_dirichlet_iff (sys : LinSys) (bc : BoundarySpec)
    (hsub : bc.dofs ⊆ Finset.range sys.n) (x : ℕ → ℚ) :
    SolvesSystem (dirichletSystem sys bc) x ↔
      ((∀ d ∈ bc.dofs, x d = bc.val d) ∧
       ∀ r < sys.n, r ∉ bc.dofs →
         (∑ c ∈ Finset.range sys.n, sys.A r c *
           (if c ∈ bc.dofs then bc.val c else x c)) = sys.b r) := by
  constructor
  · intro h
    constructor
    · intro d hd
      have hdn : d < sys.n := Finset.mem_range.mp (hsub hd)
      have := h d hdn
      rw [matvec_dirichlet_constrained sys bc x hd hdn] at this
      rw [this]
      simp [dirichletSystem, hd]
    · intro r hrn hr
      have hb : (dirichletSystem sys bc).b r = sys.b r -
          ∑ c ∈ Finset.range sys.n, (if c ∈ bc.dofs then sys.A r c * bc.val c else 0) := by
        simp [dirichletSystem, hr]
      have key := matvec_dirichlet_unconstrained sys bc x hr
      rw [h r hrn, hb] at key
      linarith [key]
  · intro ⟨h1, h2⟩ r hrn
    by_cases hr : r ∈ bc.dofs
    · rw [matvec_dirichlet_constrained sys bc x hr hrn, h1 r hr]
      simp [dirichletSystem, hr]
    · have hb : (dirichletSystem sys bc).b r = sys.b r -
          ∑ c ∈ Finset.range sys.n, (if c ∈ bc.dofs then sys.A r c * bc.val c else 0) := by
        simp [dirichletSystem, hr]
      have key := matvec_dirichlet_unconstrained sys bc x hr
      rw [h2 r hrn hr] at key
      rw [hb]
      linarith [key]

/-! ## applyDirichlet basics -/

theorem applyDirichlet_ok (sys : LinSys) (bc : BoundarySpec)
    (h : bc.dofs ⊆ Finset.range sys.n) :
    applyDirichlet sys bc = .ok (dirichletSystem sys bc) := by
  rw [applyDirichlet, if_pos h]

theorem applyDirichlet_inv {sys : LinSys} {bc : BoundarySpec} {sys' : LinSys}
    (h : applyDirichlet sys bc = .ok sys') :
    bc.dofs ⊆ Finset.range sys.n ∧ sys' = dirichletSystem sys bc := by
  by_cases hs : bc.dofs ⊆ Finset.range sys.n
  · rw [applyDirichlet, if_pos hs] at h
    exact ⟨hs, (Except.ok.inj h).symm⟩
  · rw [applyDirichlet, if_neg hs] at h
    exact absurd h (by simp)

theorem LinSys.ext' {s t : LinSys} (hn : s.n = t.n) (hA : s.A = t.A)
    (hb : s.b = t.b) : s = t := by
  cases s; cases t
  cases hn; cases hA; cases hb
  rfl

theorem dirichletSystem_idem (sys : LinSys) (bc : BoundarySpec) :
    dirichletSystem (dirichletSystem sys bc) bc = dirichletSystem sys bc := by
  refine LinSys.ext' rfl ?_ ?_
  · funext r c
    by_cases hr : r ∈ bc.dofs <;> by_cases hc : c ∈ bc.dofs <;>
      simp [dirichletSystem, hr, hc]
  · funext r
    by_cases hr : r ∈ bc.dofs
    · simp [dirichletSystem, hr]
    · have hz : (∑ c ∈ Finset.range (dirichletSystem sys bc).n,
          if c ∈ bc.dofs then (dirichletSystem sys bc).A r c * bc.val c else 0) = 0 := by
        apply Finset.sum_eq_zero
        intro c _
        by_cases hc : c ∈ bc.dofs
        · simp [dirichletSystem, hr, hc]
        · simp [hc]
      calc (dirichletSystem (dirichletSystem sys bc) bc).b r
          = (dirichletSystem sys bc).b r - ∑ c ∈ Finset.range (dirichletSystem sys bc).n,
              (if c ∈ bc.dofs then (dirichletSystem sys bc).A r c * bc.val c else 0) := by
            simp only [dirichletSystem, if_neg hr]
        _ = (dirichletSystem sys bc).b r := by rw [hz, sub_zero]

/-- C3: `applyDirichlet` is idempotent — re-applying the same boundary
specification to an already-constrained system returns exactly the same
matrix and right-hand side (no double subtraction on the RHS). -/
theorem applyDirichlet_idempotent (sys : LinSys) (bc : BoundarySpec) (sys' : LinSys)
    (h : applyDirichlet sys bc = .ok sys') :
    applyDirichlet sys' bc = .ok sys' := by
  obtain ⟨hsub, rfl⟩ := applyDirichlet_inv h
  have hsub2 : bc.dofs ⊆ Finset.range (dirichletSystem sys bc).n := hsub
  rw [applyDirichlet_ok _ _ hsub2, dirichletSystem_idem]

/-- Witness for C3 at a concrete 2-DOF system. -/
theorem applyDirichlet_idempotent_witness :
    applyDirichlet
      (dirichletSystem ⟨2, fun _ _ => 1, fun _ => 2⟩ ⟨{0}, fun _ => 5⟩)
      ⟨{0}, fun _ => 5⟩ =
    .ok (dirichletSystem ⟨2, fun _ _ => 1, fun _ => 2⟩ ⟨{0}, fun _ => 5⟩) :=
  applyDirichlet_idempotent ⟨2, fun _ _ => 1, fun _ => 2⟩ ⟨{0}, fun _ => 5⟩ _
    (applyDirichlet_ok _ _ (by decide))

/-! ## Mesh invariants (claim C4) -/

theorem build_ok_inv {minX minY maxX maxY : ℚ} {resX resY : ℕ} {m : Mesh}
    (hrx : 0 < resX) (hry : 0 < resY) (hdx : minX < maxX) (hdy : minY < maxY)
    (hb : StructuredMesh.build minX minY maxX maxY resX resY = .ok m) :
    m = ⟨resX, resY, minX, minY, maxX, maxY⟩ := by
  rw [StructuredMesh.build, if_neg (by omega),
    if_neg (by push_neg; constructor <;> linarith)] at hb
  exact (Except.ok.inj hb).symm

/-- C4: a successfully built structured mesh has exactly `(resX+1)(resY+1)`
nodes and `resX·resY` elements; every element lists four valid, pairwise
distinct node indices; and node spacing is uniform along each axis with
steps `(maxX-minX)/resX` and `(maxY-minY)/resY`. -/
theorem build_mesh_invariants (minX minY maxX maxY : ℚ) (resX resY : ℕ) (m : Mesh)
    (hrx : 0 < resX) (hry : 0 < resY) (hdx : minX < maxX) (hdy : minY < maxY)
    (hb : StructuredMesh.build minX minY maxX maxY resX resY = .ok m) :
    m.nodes.length = (resX + 1) * (resY + 1) ∧
    m.elems.length = resX * resY ∧
    (∀ el ∈ m.elems, el.length = 4 ∧ el.Nodup ∧ ∀ idx ∈ el, idx < m.nodes.length) ∧
    (∀ i < resX, ∀ j < resY + 1,
      (m.coord (j * (resX + 1) + (i + 1))).1 - (m.coord (j * (resX + 1) + i)).1 =
        (maxX - minX) / resX ∧
      (m.coord (j * (resX + 1) + (i + 1))).2 = (m.coord (j * (resX + 1) + i)).2) ∧
    (∀ i < resX + 1, ∀ j < resY,
      (m.coord ((j + 1) * (resX + 1) + i)).2 - (m.coord (j * (resX + 1) + i)).2 =
        (maxY - minY) / resY ∧
      (m.coord ((j + 1) * (resX + 1) + i)).1 = (m.coord (j * (resX + 1) + i)).1) := by
  obtain rfl := build_ok_inv hrx hry hdx hdy hb
  refine ⟨by simp [Mesh.nodes, Mesh.nodeCount], by simp [Mesh.elems, Mesh.elemCount],
    ?_, ?_, ?_⟩
  · intro el hel
    rw [Mesh.elems, List.mem_map] at hel
    obtain ⟨e, he, rfl⟩ := hel
    rw [List.mem_range] at he
    refine ⟨rfl, ?_, ?_⟩
    · simp only [Mesh.elemNode]
      have hgen : ∀ b : ℕ, List.Nodup [b, b + 1, b + resX + 2, b + resX + 1] := by
        intro b
        simp only [List.nodup_cons, List.mem_cons, List.mem_singleton,
          List.not_mem_nil, List.nodup_nil, or_false, and_true, not_or,
          not_false_eq_true, true_and]
        omega
      exact hgen _
    · intro idx hidx
      have hlen : (Mesh.mk resX resY minX minY maxX maxY).nodes.length =
          (Mesh.mk resX resY minX minY maxX maxY).nodeCount := by
        simp [Mesh.nodes]
      rw [hlen]
      simp only [List.mem_cons, List.not_mem_nil, or_false] at hidx
      rcases hidx with h | h | h | h <;> rw [h] <;>
        exact Mesh.elemNode_lt _ hrx he _
  · intro i hi j _
    have c1 := (Mesh.mk resX resY minX minY maxX maxY).coord_closed
      (i := i + 1) j (Nat.succ_lt_succ hi)
    have c0 := (Mesh.mk resX resY minX minY maxX maxY).coord_closed
      (i := i) j (Nat.lt_succ_of_lt hi)
    rw [c1, c0]
    constructor
    · show minX + (↑(i + 1) : ℚ) * _ - (minX + (↑i : ℚ) * _) = _
      rw [Mesh.hx]
      push_cast
      ring
    · rfl
  · intro i hi j _
    have c1 := (Mesh.mk resX resY minX minY maxX maxY).coord_closed
      (i := i) (j + 1) hi
    have c0 := (Mesh.mk resX resY minX minY maxX maxY).coord_closed
      (i := i) j hi
    rw [c1, c0]
    constructor
    · show minY + (↑(j + 1) : ℚ) * _ - (minY + (↑j : ℚ) * _) = _
      rw [Mesh.hy]
      push_cast
      ring
    · rfl

/-- Witness for C4 on the notebook's 16×8 mesh of `[0,2]×[0,1]`. -/
theorem build_mesh_invariants_witness :
    StructuredMesh.build 0 0 2 1 16 8 = .ok ⟨16, 8, 0, 0, 2, 1⟩ ∧
    (Mesh.mk 16 8 0 0 2 1).nodes.length = 17 * 9 := by
  have hb : StructuredMesh.build 0 0 2 1 16 8 = .ok ⟨16, 8, 0, 0, 2, 1⟩ := by
    rw [StructuredMesh.build, if_neg (by norm_num), if_neg (by norm_num)]
  have h := build_mesh_invariants 0 0 2 1 16 8 ⟨16, 8, 0, 0, 2, 1⟩
    (by norm_num) (by norm_num) (by norm_num) (by norm_num) hb
  exact ⟨hb, h.1⟩

/-! ## Validation errors (claim C7) -/

/-- Counterexample for C7 as frozen: on an input that violates both the
resolution and the domain condition (`res = (0,1)`, `min = (1,0)`,
`max = (0,1)`), `build` raises `InvalidResolutionError` — not the
`InvalidDomainError` the claim demands for every input with
`minCoord ≥ maxCoord` in some component. -/
theorem build_domain_claim_counterexample :
    StructuredMesh.build 1 0 0 1 0 1 = .error .invalidResolution ∧
    EngineError.invalidResolution ≠ EngineError.invalidDomain := by
  constructor
  · rw [StructuredMesh.build, if_pos (Or.inl rfl)]
  · decide

/-- C7 (amended): `build` raises `InvalidResolutionError` whenever a
resolution component is non-positive; it raises `InvalidDomainError` whenever
the resolution is positive but `minCoord ≥ maxCoord` in some component; and on
positive resolutions with `minCoord < maxCoord` componentwise it succeeds. -/
theorem build_validation (minX minY maxX maxY : ℚ) (resX resY : ℕ) :
    ((resX = 0 ∨ resY = 0) →
      StructuredMesh.build minX minY maxX maxY resX resY =
        .error .invalidResolution) ∧
    (0 < resX → 0 < resY → (maxX ≤ minX ∨ maxY ≤ minY) →
      StructuredMesh.build minX minY maxX maxY resX resY =
        .error .invalidDomain) ∧
    (0 < resX → 0 < resY → minX < maxX → minY < maxY →
      StructuredMesh.build minX minY maxX maxY resX resY =
        .ok ⟨resX, resY, minX, minY, maxX, maxY⟩) := by
  refine ⟨fun h => ?_, fun h1 h2 h3 => ?_, fun h1 h2 h3 h4 => ?_⟩
  · rw [StructuredMesh.build, if_pos h]
  · rw [StructuredMesh.build, if_neg (by omega), if_pos h3]
  · rw [StructuredMesh.build, if_neg (by omega),
      if_neg (by push_neg; constructor <;> linarith)]

/-- Witness for C7 at concrete inputs exercising all three outcomes. -/
theorem build_validation_witness :
    StructuredMesh.build 0 0 1 1 0 3 = .error .invalidResolution ∧
    StructuredMesh.build 0 0 0 1 2 3 = .error .invalidDomain ∧
    StructuredMesh.build 0 0 2 1 16 8 = .ok ⟨16, 8, 0, 0, 2, 1⟩ :=
  ⟨(build_validation 0 0 1 1 0 3).1 (Or.inl rfl),
   (build_validation 0 0 0 1 2 3).2.1 (by norm_num) (by norm_num)
     (Or.inl (by norm_num)),
   (build_validation 0 0 2 1 16 8).2.2 (by norm_num) (by norm_num)
     (by norm_num) (by norm_num)⟩

/-! ## Prescribed values at constrained DOFs (claims C2, C10) -/

/-- C2: for every assembled system and every boundary specification, any
DOF-value vector solving the `applyDirichlet`-constrained system equals the
prescribed value at every constrained DOF — regardless of the unconstrained
system's content — and the solver's write-back stores the result into the
originating field's storage at the corresponding DOF indices. -/
theorem dirichlet_solve_prescribed (sys : LinSys) (bc : BoundarySpec)
    (sys' : LinSys) (x : ℕ → ℚ)
    (hok : applyDirichlet sys bc = .ok sys') (hx : SolvesSystem sys' x) :
    (∀ d ∈ bc.dofs, x d = bc.val d) ∧
    (∀ field : ℕ → ℚ, ∀ d ∈ bc.dofs, writeback sys.n x field d = bc.val d) ∧
    (∀ field : ℕ → ℚ, ∀ r < sys.n, writeback sys.n x field r = x r) := by
  obtain ⟨hsub, rfl⟩ := applyDirichlet_inv hok
  have h := (solves_dirichlet_iff sys bc hsub x).mp hx
  refine ⟨h.1, ?_, ?_⟩
  · intro field d hd
    have hdn : d < sys.n := Finset.mem_range.mp (hsub hd)
    rw [writeback]
    simp only [if_pos hdn]
    exact h.1 d hd
  · intro field r hr
    rw [writeback]
    simp only [if_pos hr]

/-- Witness for C2 on a concrete 2-DOF system with one constrained DOF. -/
theorem dirichlet_solve_prescribed_witness :
    SolvesSystem
      (dirichletSystem ⟨2, fun r c => if r = c then 2 else 1, fun _ => 0⟩
        ⟨{0}, fun _ => 7⟩)
      (fun r => if r = 0 then (7 : ℚ) else -7/2) ∧
    (∀ d ∈ ({0} : Finset ℕ),
      (fun r => if r = 0 then (7 : ℚ) else -7/2) d = 7) := by
  have hok : applyDirichlet ⟨2, fun r c => if r = c then 2 else 1, fun _ => 0⟩
      ⟨{0}, fun _ => 7⟩ =
      .ok (dirichletSystem ⟨2, fun r c => if r = c then 2 else 1, fun _ => 0⟩
        ⟨{0}, fun _ => 7⟩) :=
    applyDirichlet_ok _ _ (by decide)
  have hsol : SolvesSystem
      (dirichletSystem ⟨2, fun r c => if r = c then 2 else 1, fun _ => 0⟩
        ⟨{0}, fun _ => 7⟩)
      (fun r => if r = 0 then (7 : ℚ) else -7/2) := by
    unfold SolvesSystem matvec
    intro r hr
    have h2 : r < 2 := hr
    interval_cases r <;>
      simp [dirichletSystem, Finset.sum_range_succ] <;> norm_num
  exact ⟨hsol, (dirichlet_solve_prescribed _ _ _ _ hok hsol).1⟩

/-- C10: a `DirichletCondition` carries only DOF index sets; the prescribed
values are those stored in the field immediately before the solve, and after
the solve's write-back every constrained DOF still holds its pre-solve field
value while only the unconstrained DOFs are overwritten. -/
theorem dirichlet_condition_field_values (sys : LinSys) (bc : DirichletCondition)
    (field : ℕ → ℚ) (sys' : LinSys) (x : ℕ → ℚ)
    (hok : applyDirichlet sys (bc.toSpec field) = .ok sys')
    (hx : SolvesSystem sys' x) :
    (∀ d ∈ bc.indexSets, writeback sys.n x field d = field d) ∧
    (∀ r, r ∉ bc.indexSets →
      writeback sys.n x field r = if r < sys.n then x r else field r) := by
  obtain ⟨hsub, rfl⟩ := applyDirichlet_inv hok
  have h := (solves_dirichlet_iff sys (bc.toSpec field) hsub x).mp hx
  constructor
  · intro d hd
    have hdn : d < sys.n := Finset.mem_range.mp (hsub hd)
    have hv : x d = field d := h.1 d hd
    rw [writeback]
    simp only [if_pos hdn]
    exact hv
  · intro r _
    rfl

/-- Witness for C10 on a concrete 2-DOF identity system. -/
theorem dirichlet_condition_field_values_witness :
    SolvesSystem
      (dirichletSystem ⟨2, fun r c => if r = c then 1 else 0, fun _ => 3⟩
        (DirichletCondition.toSpec ⟨{0}⟩ (fun r => if r = 0 then (4 : ℚ) else 9)))
      (fun r => if r = 0 then (4 : ℚ) else 3) ∧
    (∀ d ∈ ({0} : Finset ℕ),
      writeback 2 (fun r => if r = 0 then (4 : ℚ) else 3)
        (fun r => if r = 0 then (4 : ℚ) else 9) d =
      (fun r => if r = 0 then (4 : ℚ) else 9) d) := by
  have hok : applyDirichlet ⟨2, fun r c => if r = c then 1 else 0, fun _ => 3⟩
      (DirichletCondition.toSpec ⟨{0}⟩ (fun r => if r = 0 then (4 : ℚ) else 9)) =
      .ok (dirichletSystem ⟨2, fun r c => if r = c then 1 else 0, fun _ => 3⟩
        (DirichletCondition.toSpec ⟨{0}⟩ (fun r => if r = 0 then (4 : ℚ) else 9))) :=
    applyDirichlet_ok _ _ (by decide)
  have hsol : SolvesSystem
      (dirichletSystem ⟨2, fun r c => if r = c then 1 else 0, fun _ => 3⟩
        (DirichletCondition.toSpec ⟨{0}⟩ (fun r => if r = 0 then (4 : ℚ) else 9)))
      (fun r => if r = 0 then (4 : ℚ) else 3) := by
    unfold SolvesSystem matvec
    intro r hr
    have h2 : r < 2 := hr
    interval_cases r <;>
      simp [dirichletSystem, DirichletCondition.toSpec, Finset.sum_range_succ] <;>
      norm_num
  exact ⟨hsol,
    (dirichlet_condition_field_values _ ⟨{0}⟩ _ _ _ hok hsol).1⟩

/-! ## Union of disjoint boundary sets (claim C9) -/

/-- Combining two boundary specifications (the notebook's
`botWalls + topWalls`): indices are united; on the union, membership in the
first set decides which value applies. -/
def BoundarySpec.union (s1 s2 : BoundarySpec) : BoundarySpec :=
  ⟨s1.dofs ∪ s2.dofs, fun d => if d ∈ s1.dofs then s1.val d else s2.val d⟩

/-- C9: constraining the union of two disjoint boundary sets with distinct
values enforces each set's own value on its DOFs, and every DOF outside the
union remains unconstrained: any solution satisfies the original (assembled)
linear equation at those rows. -/
theorem dirichlet_union_frame (sys : LinSys) (s1 s2 : BoundarySpec)
    (hdisj : Disjoint s1.dofs s2.dofs) (sys' : LinSys) (x : ℕ → ℚ)
    (hok : applyDirichlet sys (s1.union s2) = .ok sys')
    (hx : SolvesSystem sys' x) :
    (∀ d ∈ s1.dofs, x d = s1.val d) ∧
    (∀ d ∈ s2.dofs, x d = s2.val d) ∧
    (∀ r < sys.n, r ∉ s1.dofs → r ∉ s2.dofs →
      (∑ c ∈ Finset.range sys.n, sys.A r c * x c) = sys.b r) := by
  obtain ⟨hsub, rfl⟩ := applyDirichlet_inv hok
  have h := (solves_dirichlet_iff sys (s1.union s2) hsub x).mp hx
  have hval : ∀ d ∈ (s1.union s2).dofs, x d = (s1.union s2).val d := h.1
  refine ⟨?_, ?_, ?_⟩
  · intro d hd
    have := hval d (Finset.mem_union_left _ hd)
    rw [this]
    show (if d ∈ s1.dofs then s1.val d else s2.val d) = s1.val d
    rw [if_pos hd]
  · intro d hd
    have := hval d (Finset.mem_union_right _ hd)
    rw [this]
    show (if d ∈ s1.dofs then s1.val d else s2.val d) = s2.val d
    rw [if_neg (Finset.disjoint_right.mp hdisj hd)]
  · intro r hrn hr1 hr2
    have hru : r ∉ (s1.union s2).dofs := by
      show r ∉ s1.dofs ∪ s2.dofs
      simp [hr1, hr2]
    have := h.2 r hrn hru
    rw [← this]
    refine Finset.sum_congr rfl fun c _ => ?_
    by_cases hc : c ∈ (s1.union s2).dofs
    · rw [if_pos hc, ← hval c hc]
    · rw [if_neg hc]

/-- Witness for C9 on a concrete 3-DOF identity system with disjoint
constrained sets `{0}` and `{2}`. -/
theorem dirichlet_union_frame_witness :
    SolvesSystem
      (dirichletSystem ⟨3, fun r c => if r = c then 1 else 0,
        fun r => if r = 1 then 5 else 0⟩
        (BoundarySpec.union ⟨{0}, fun _ => 1⟩ ⟨{2}, fun _ => 2⟩))
      (fun r => if r = 0 then (1 : ℚ) else if r = 2 then 2 else 5) ∧
    (∑ c ∈ Finset.range 3,
      (if (1 : ℕ) = c then (1 : ℚ) else 0) *
        (fun r => if r = 0 then (1 : ℚ) else if r = 2 then 2 else 5) c) = 5 := by
  have hok : applyDirichlet ⟨3, fun r c => if r = c then 1 else 0,
      fun r => if r = 1 then 5 else 0⟩
      (BoundarySpec.union ⟨{0}, fun _ => 1⟩ ⟨{2}, fun _ => 2⟩) =
      .ok (dirichletSystem ⟨3, fun r c => if r = c then 1 else 0,
        fun r => if r = 1 then 5 else 0⟩
        (BoundarySpec.union ⟨{0}, fun _ => 1⟩ ⟨{2}, fun _ => 2⟩)) :=
    applyDirichlet_ok _ _ (by decide)
  have hsol : SolvesSystem
      (dirichletSystem ⟨3, fun r c => if r = c then 1 else 0,
        fun r => if r = 1 then 5 else 0⟩
        (BoundarySpec.union ⟨{0}, fun _ => 1⟩ ⟨{2}, fun _ => 2⟩))
      (fun r => if r = 0 then (1 : ℚ) else if r = 2 then 2 else 5) := by
    unfold SolvesSystem matvec
    intro r hr
    have h3 : r < 3 := hr
    interval_cases r <;>
      simp [dirichletSystem, BoundarySpec.union, Finset.sum_range_succ] <;>
      norm_num
  refine ⟨hsol, ?_⟩
  have h := (dirichlet_union_frame _ _ _ (by decide) _ _ hok hsol).2.2 1
    (by norm_num) (by decide) (by decide)
  simpa using h

/-! ## Jacobian closed form on structured meshes -/

theorem Mesh.jac_eq (m : Mesh) (hrx : 0 < m.resX) (e : ℕ) (ξ η : ℚ) :
    m.jac e ξ η = ((m.hx / 2, 0), (0, m.hy / 2)) := by
  have hex : e % m.resX < m.resX := Nat.mod_lt _ hrx
  obtain ⟨h0, h1, h2, h3⟩ := m.elemNode_eq e
  have c0 := m.coord_closed (i := e % m.resX) (e / m.resX) (by omega)
  have c1 := m.coord_closed (i := e % m.resX + 1) (e / m.resX) (by omega)
  have c2 := m.coord_closed (i := e % m.resX + 1) (e / m.resX + 1) (by omega)
  have c3 := m.coord_closed (i := e % m.resX) (e / m.resX + 1) (by omega)
  rw [Mesh.jac]
  simp only [Fin.sum_univ_four, h0, h1, h2, h3, c0, c1, c2, c3, shapeDXi,
    shapeDEta, cornerSign]
  rw [Prod.mk.injEq, Prod.mk.injEq, Prod.mk.injEq]
  refine ⟨⟨?_, ?_⟩, ?_, ?_⟩ <;> · push_cast; ring

theorem Mesh.gradN_eq (m : Mesh) (hrx : 0 < m.resX) (hx0 : m.hx ≠ 0)
    (hy0 : m.hy ≠ 0) (e : ℕ) (i : Fin 4) (ξ η : ℚ) :
    m.gradN e i ξ η = (2 * shapeDXi i η / m.hx, 2 * shapeDEta i ξ / m.hy) := by
  have hd : m.detJ e ξ η = m.hx * m.hy / 4 := m.detJ_eq hrx e ξ η
  rw [Mesh.gradN, Mesh.jac_eq m hrx, hd]
  rw [Prod.mk.injEq]
  constructor <;> · field_simp; ring

/-! ## Constant-field integral (claim C5) -/

/-- C5: integrating a field holding the constant value `c` at every DOF of a
built mesh yields `c · A` where `A` is the domain area, the integral being the
same quadrature/interpolation sum as assembly uses. -/
theorem integrate_const (minX minY maxX maxY : ℚ) (resX resY : ℕ) (m : Mesh)
    (hrx : 0 < resX) (hry : 0 < resY) (hdx : minX < maxX) (hdy : minY < maxY)
    (hb : StructuredMesh.build minX minY maxX maxY resX resY = .ok m)
    (f : ℕ → ℚ) (c : ℚ) (hf : ∀ i < m.nodeCount, f i = c) :
    integrate m f = c * ((maxX - minX) * (maxY - minY)) := by
  obtain rfl := build_ok_inv hrx hry hdx hdy hb
  set m := Mesh.mk resX resY minX minY maxX maxY with hm
  have hElem : ∀ e ∈ Finset.range m.elemCount,
      (quadRule.map fun q => q.2.2 * interpAt m f e q.1 q.2.1 *
        m.detJ e q.1 q.2.1).sum = c * (m.hx * m.hy) := by
    intro e he
    rw [Finset.mem_range] at he
    have hI : ∀ ξ η : ℚ, interpAt m f e ξ η = c := by
      intro ξ η
      rw [interpAt]
      have hv : ∀ i : Fin 4, f (m.elemNode e i) = c := fun i =>
        hf _ (m.elemNode_lt hrx he i)
      calc ∑ i : Fin 4, shapeN i ξ η * f (m.elemNode e i)
          = ∑ i : Fin 4, shapeN i ξ η * c :=
            Finset.sum_congr rfl fun i _ => by rw [hv i]
        _ = (∑ i : Fin 4, shapeN i ξ η) * c := by rw [Finset.sum_mul]
        _ = c := by rw [shapeN_partition, one_mul]
    have hD : ∀ ξ η : ℚ, m.detJ e ξ η = m.hx * m.hy / 4 := m.detJ_eq hrx e
    simp only [quadRule, List.map_cons, List.map_nil, List.sum_cons,
      List.sum_nil, hI, hD]
    ring
  rw [integrate, Finset.sum_congr rfl hElem, Finset.sum_const, Finset.card_range]
  have hxv : m.hx = (maxX - minX) / resX := rfl
  have hyv : m.hy = (maxY - minY) / resY := rfl
  have hec : m.elemCount = resX * resY := rfl
  rw [hxv, hyv, hec, nsmul_eq_mul]
  have hrx0 : (resX : ℚ) ≠ 0 := Nat.cast_ne_zero.mpr (by omega)
  have hry0 : (resY : ℚ) ≠ 0 := Nat.cast_ne_zero.mpr (by omega)
  push_cast
  field_simp

/-- Witness for C5: a 2×1 mesh of `[0,2]×[0,1]` with the constant field 3. -/
theorem integrate_const_witness :
    integrate ⟨2, 1, 0, 0, 2, 1⟩ (fun _ => 3) = 6 := by
  have hb : StructuredMesh.build 0 0 2 1 2 1 = .ok ⟨2, 1, 0, 0, 2, 1⟩ := by
    rw [StructuredMesh.build, if_neg (by norm_num), if_neg (by norm_num)]
  have h := integrate_const 0 0 2 1 2 1 ⟨2, 1, 0, 0, 2, 1⟩ (by norm_num)
    (by norm_num) (by norm_num) (by norm_num) hb (fun _ => 3) 3
    (fun _ _ => rfl)
  rw [h]
  norm_num

/-! ## Degenerate-element detection (claim C8) -/

/-- C8: `assembleElement` fails with `DegenerateElementError` whenever
`|J| ≤ 0` at some quadrature point; on a mesh built from valid inputs the
Jacobian determinant is strictly positive at every quadrature point of every
element, so element assembly always succeeds there. -/
theorem assemble_degenerate_detection :
    (∀ (m' : Mesh) (coeff source : ℚ × ℚ → ℚ) (e : ℕ),
      (∃ q ∈ quadRule, m'.detJ e q.1 q.2.1 ≤ 0) →
        assembleElement m' coeff source e = .error .degenerateElement) ∧
    (∀ (minX minY maxX maxY : ℚ) (resX resY : ℕ) (m : Mesh),
      0 < resX → 0 < resY → minX < maxX → minY < maxY →
      StructuredMesh.build minX minY maxX maxY resX resY = .ok m →
      (∀ e < m.elemCount, ∀ q ∈ quadRule, 0 < m.detJ e q.1 q.2.1) ∧
      (∀ (coeff source : ℚ × ℚ → ℚ), ∀ e < m.elemCount,
        assembleElement m coeff source e =
          .ok (localK m coeff e, localF m source e))) := by
  constructor
  · intro m' coeff source e hq
    rw [assembleElement, dif_neg]
    push_neg
    obtain ⟨q, hq1, hq2⟩ := hq
    exact ⟨q, hq1, hq2⟩
  · intro minX minY maxX maxY resX resY m hrx hry hdx hdy hb
    obtain rfl := build_ok_inv hrx hry hdx hdy hb
    set m := Mesh.mk resX resY minX minY maxX maxY with hm
    have hpos : ∀ e, ∀ q ∈ quadRule, 0 < m.detJ e q.1 q.2.1 := by
      intro e q _
      rw [m.detJ_eq hrx e]
      have h1 : 0 < m.hx := by
        apply div_pos (by linarith) (by exact_mod_cast Nat.cast_pos.mpr hrx)
      have h2 : 0 < m.hy := by
        apply div_pos (by linarith) (by exact_mod_cast Nat.cast_pos.mpr hry)
      positivity
    refine ⟨fun e _ => hpos e, fun coeff source e _ => ?_⟩
    rw [assembleElement, dif_pos (hpos e)]

/-- Witness for C8: a zero-width mesh record yields a degenerate element,
while the notebook's built 16×8 mesh assembles its first element. -/
theorem assemble_degenerate_detection_witness :
    assembleElement ⟨1, 1, 0, 0, 0, 1⟩ oneFn zeroFn 0 =
      .error .degenerateElement ∧
    assembleElement ⟨16, 8, 0, 0, 2, 1⟩ oneFn zeroFn 0 =
      .ok (localK ⟨16, 8, 0, 0, 2, 1⟩ oneFn 0, localF ⟨16, 8, 0, 0, 2, 1⟩ zeroFn 0) := by
  constructor
  · apply assemble_degenerate_detection.1
    refine ⟨(-1/2, -1/2, 1), by simp [quadRule], ?_⟩
    rw [Mesh.detJ_eq _ (by norm_num) 0]
    rw [show (Mesh.mk 1 1 0 0 0 1).hx = 0 by norm_num [Mesh.hx]]
    norm_num
  · have hb : StructuredMesh.build 0 0 2 1 16 8 = .ok ⟨16, 8, 0, 0, 2, 1⟩ := by
      rw [StructuredMesh.build, if_neg (by norm_num), if_neg (by norm_num)]
    exact (assemble_degenerate_detection.2 0 0 2 1 16 8 ⟨16, 8, 0, 0, 2, 1⟩
      (by norm_num) (by norm_num) (by norm_num) (by norm_num) hb).2 oneFn zeroFn 0
      (by norm_num [Mesh.elemCount])

/-! ## Singular-system detection (claim C6) -/

theorem pickPivot_none {rows : List (List ℚ)}
    (h : ∀ row ∈ rows, row.headD 0 = 0) : pickPivot rows = none := by
  induction rows with
  | nil => rfl
  | cons r rs ih =>
    rw [pickPivot, if_neg (not_not_intro (h r (List.mem_cons_self r rs))),
      ih fun row hr => h row (List.mem_cons_of_mem r hr)]

theorem forwardElim_singular {rows : List (List ℚ)} (hne : rows ≠ [])
    (h : ∀ row ∈ rows, row.headD 0 = 0) :
    forwardElim rows = .error .singularSystem := by
  rw [forwardElim]
  split
  · rw [if_neg (by simpa [List.isEmpty_iff] using hne)]
  · next p rest hp =>
    rw [pickPivot_none h] at hp
    exact absurd hp (by simp)

/-- C6: on any built mesh, a coefficient that is zero everywhere with no
Dirichlet constraints applied produces a singular assembled matrix, and the
solver fails with `SingularSystemError` instead of returning a value vector. -/
theorem zero_coefficient_singular (minX minY maxX maxY : ℚ) (resX resY : ℕ)
    (m : Mesh) (hrx : 0 < resX) (hry : 0 < resY) (hdx : minX < maxX)
    (hdy : minY < maxY)
    (hb : StructuredMesh.build minX minY maxX maxY resX resY = .ok m)
    (source : ℚ × ℚ → ℚ) :
    geSolve (assembleSystem m zeroFn source) = .error .singularSystem := by
  obtain rfl := build_ok_inv hrx hry hdx hdy hb
  set m := Mesh.mk resX resY minX minY maxX maxY with hm
  have hn : 0 < (assembleSystem m zeroFn source).n := by
    show 0 < m.nodeCount
    rw [Mesh.nodeCount]
    positivity
  have hne : (assembleSystem m zeroFn source).augmented ≠ [] := by
    rw [LinSys.augmented]
    simp only [ne_eq, List.map_eq_nil_iff, List.range_eq_nil]
    omega
  have hzero : ∀ row ∈ (assembleSystem m zeroFn source).augmented,
      row.headD 0 = 0 := by
    intro row hrow
    rw [LinSys.augmented, List.mem_map] at hrow
    obtain ⟨r, _, rfl⟩ := hrow
    obtain ⟨k, hk⟩ := Nat.exists_eq_succ_of_ne_zero (Nat.pos_iff_ne_zero.mp hn)
    rw [show (assembleSystem m zeroFn source).n = k + 1 from hk,
      List.range_succ_eq_map]
    simp only [List.map_cons, List.cons_append, List.headD_cons]
    exact globalK_zero m r 0
  rw [geSolve, forwardElim_singular hne hzero]

/-- Witness for C6 on a concrete 1×1 unit-square mesh. -/
theorem zero_coefficient_singular_witness :
    geSolve (assembleSystem ⟨1, 1, 0, 0, 1, 1⟩ zeroFn zeroFn) =
      .error .singularSystem := by
  have hb : StructuredMesh.build 0 0 1 1 1 1 = .ok ⟨1, 1, 0, 0, 1, 1⟩ := by
    rw [StructuredMesh.build, if_neg (by norm_num), if_neg (by norm_num)]
  exact zero_coefficient_singular 0 0 1 1 1 1 ⟨1, 1, 0, 0, 1, 1⟩ (by norm_num)
    (by norm_num) (by norm_num) (by norm_num) hb zeroFn

/-! ## The notebook's end-to-end scenario (claim C1)

Domain `[0,2]×[0,1]`, resolution 16×8, diffusivity 1, zero source, Dirichlet
value 1 on the bottom wall and 0 on the top wall, side walls unconstrained. -/

/-- The notebook's 16×8 mesh of `[0,2]×[0,1]`. -/
def scenarioMesh : Mesh := ⟨16, 8, 0, 0, 2, 1⟩

/-- The temperature field immediately before the solve: initialised to zero,
then 1 on the bottom wall and 0 on the top wall. -/
def scenarioField : ℕ → ℚ := fun r => if r < 17 then 1 else 0

/-- The notebook's boundary specification: bottom and top wall node sets with
the prescribed values read from the field's storage. -/
def scenarioSpec : BoundarySpec :=
  ⟨scenarioMesh.bottomSet ∪ scenarioMesh.topSet, scenarioField⟩

/-- The assembled scenario system: diffusivity 1, zero source. -/
def scenarioSystem : LinSys := assembleSystem scenarioMesh oneFn zeroFn

/-- The analytic solution profile `T = 1 − y` sampled at the scenario mesh's
nodes: node `r` sits in grid row `r / 17` at height `(r / 17) / 8`. -/
def linearProfile : ℕ → ℚ := fun r => 1 - ((r / 17 : ℕ) : ℚ) / 8

theorem scenario_dofs_mem (d : ℕ) :
    d ∈ scenarioSpec.dofs ↔ d < 17 ∨ (136 ≤ d ∧ d ≤ 152) := by
  simp only [scenarioSpec, scenarioMesh, Mesh.bottomSet, Mesh.topSet,
    Finset.mem_union, Finset.mem_range, Finset.mem_image]
  constructor
  · rintro (h | ⟨i, hi, rfl⟩)
    · exact Or.inl h
    · right
      omega
  · rintro (h | h)
    · exact Or.inl h
    · exact Or.inr ⟨d - 136, by omega, by omega⟩

theorem scenario_dofs_sub : scenarioSpec.dofs ⊆ Finset.range scenarioSystem.n := by
  intro d hd
  rw [scenario_dofs_mem] at hd
  have : scenarioSystem.n = 153 := rfl
  rw [this, Finset.mem_range]
  omega

/-- The constant local stiffness matrix shared by all scenario elements
(square elements, unit diffusivity): `5/8` on the diagonal, `−3/8` across the
diagonal of the square, `−1/8` between edge-adjacent corners. -/
def KC (i j : Fin 4) : ℚ :=
  if (i : ℕ) = (j : ℕ) then 5/8
  else if (i : ℕ) + 2 = (j : ℕ) ∨ (j : ℕ) + 2 = (i : ℕ) then -3/8
  else -1/8

theorem scenario_hx : scenarioMesh.hx = 1/8 := by
  norm_num [Mesh.hx, scenarioMesh]

theorem scenario_hy : scenarioMesh.hy = 1/8 := by
  norm_num [Mesh.hy, scenarioMesh]

theorem scenario_localK (e : ℕ) (i j : Fin 4) :
    localK scenarioMesh oneFn e i j = KC i j := by
  have hrx : 0 < scenarioMesh.resX := by norm_num [scenarioMesh]
  have hg : ∀ (k : Fin 4) (ξ η : ℚ), scenarioMesh.gradN e k ξ η =
      (16 * shapeDXi k η, 16 * shapeDEta k ξ) := by
    intro k ξ η
    rw [Mesh.gradN_eq _ hrx (by rw [scenario_hx]; norm_num)
      (by rw [scenario_hy]; norm_num) e, scenario_hx, scenario_hy]
    rw [Prod.mk.injEq]
    constructor <;> ring
  have hd : ∀ ξ η : ℚ, scenarioMesh.detJ e ξ η = 1/256 := by
    intro ξ η
    rw [Mesh.detJ_eq _ hrx e, scenario_hx, scenario_hy]
    norm_num
  rw [localK]
  simp only [quadRule, List.map_cons, List.map_nil, List.sum_cons, List.sum_nil,
    hg, hd, oneFn]
  fin_cases i <;> fin_cases j <;>
    norm_num [shapeDXi, shapeDEta, cornerSign, KC] <;> ring

theorem finVal_zero : ((0 : Fin 4) : ℕ) = 0 := rfl

theorem finVal_one : ((1 : Fin 4) : ℕ) = 1 := rfl

theorem finVal_two : ((2 : Fin 4) : ℕ) = 2 := rfl

theorem finVal_three : ((3 : Fin 4) : ℕ) = 3 := rfl

theorem scenario_elemNode_eq (e : ℕ) :
    scenarioMesh.elemNode e 0 = e / 16 * 17 + e % 16 ∧
    scenarioMesh.elemNode e 1 = e / 16 * 17 + e % 16 + 1 ∧
    scenarioMesh.elemNode e 2 = e / 16 * 17 + e % 16 + 18 ∧
    scenarioMesh.elemNode e 3 = e / 16 * 17 + e % 16 + 17 := by
  exact ⟨rfl, rfl, rfl, rfl⟩

/-- Against the linear-in-`y` profile, each local row sums to `±1/16`:
positive on the element's bottom corners, negative on its top corners. -/
theorem scenario_rowSum (e : ℕ) (i : Fin 4) :
    (∑ j : Fin 4, localK scenarioMesh oneFn e i j *
      linearProfile (scenarioMesh.elemNode e j)) =
      (if (i : ℕ) < 2 then (1 : ℚ)/16 else -1/16) := by
  obtain ⟨h0, h1, h2, h3⟩ := scenario_elemNode_eq e
  have d0 : scenarioMesh.elemNode e 0 / 17 = e / 16 := by omega
  have d1 : scenarioMesh.elemNode e 1 / 17 = e / 16 := by omega
  have d2 : scenarioMesh.elemNode e 2 / 17 = e / 16 + 1 := by omega
  have d3 : scenarioMesh.elemNode e 3 / 17 = e / 16 + 1 := by omega
  simp only [Fin.sum_univ_four, scenario_localK, linearProfile, d0, d1, d2, d3]
  push_cast
  fin_cases i <;>
    norm_num [KC, finVal_zero, finVal_one, finVal_two, finVal_three] <;> ring

/-- Bottom-corner indicator contribution of element `e` to the residual at
row `r`. -/
def botContribution (r e : ℕ) : ℚ :=
  (if scenarioMesh.elemNode e 0 = r then (1 : ℚ)/16 else 0) +
  (if scenarioMesh.elemNode e 1 = r then (1 : ℚ)/16 else 0)

theorem scenario_term_eq (r e : ℕ) :
    (∑ i : Fin 4, if scenarioMesh.elemNode e i = r then
      (∑ j : Fin 4, localK scenarioMesh oneFn e i j *
        linearProfile (scenarioMesh.elemNode e j)) else 0) =
    botContribution r e - botContribution r (e + 16) := by
  have hrw : ∀ i : Fin 4, (if scenarioMesh.elemNode e i = r then
      (∑ j : Fin 4, localK scenarioMesh oneFn e i j *
        linearProfile (scenarioMesh.elemNode e j)) else 0) =
      (if scenarioMesh.elemNode e i = r then
        (if (i : ℕ) < 2 then (1 : ℚ)/16 else -1/16) else 0) := by
    intro i
    rw [scenario_rowSum]
  simp only [hrw]
  have g2 : scenarioMesh.elemNode e 2 = scenarioMesh.elemNode (e + 16) 1 := by
    obtain ⟨_, _, h2, _⟩ := scenario_elemNode_eq e
    obtain ⟨_, h1s, _, _⟩ := scenario_elemNode_eq (e + 16)
    omega
  have g3 : scenarioMesh.elemNode e 3 = scenarioMesh.elemNode (e + 16) 0 := by
    obtain ⟨_, _, _, h3⟩ := scenario_elemNode_eq e
    obtain ⟨h0s, _, _, _⟩ := scenario_elemNode_eq (e + 16)
    omega
  rw [Fin.sum_univ_four, g2, g3, botContribution, botContribution]
  simp only [finVal_zero, finVal_one, finVal_two, finVal_three]
  by_cases hA : scenarioMesh.elemNode e 0 = r <;>
  by_cases hB : scenarioMesh.elemNode e 1 = r <;>
  by_cases hC : scenarioMesh.elemNode (e + 16) 1 = r <;>
  by_cases hD : scenarioMesh.elemNode (e + 16) 0 = r <;>
    simp [hA, hB, hC, hD] <;> norm_num

/-- The assembled operator annihilates the linear profile at every interior
row: contributions telescope between vertically adjacent elements, and the
boundary element rows only reference constrained (bottom/top wall) nodes. -/
theorem scenario_residual (r : ℕ) (hr17 : 17 ≤ r) (hr135 : r ≤ 135) :
    (∑ e ∈ Finset.range 128, ∑ i : Fin 4,
      if scenarioMesh.elemNode e i = r then
        (∑ j : Fin 4, localK scenarioMesh oneFn e i j *
          linearProfile (scenarioMesh.elemNode e j)) else 0) = 0 := by
  have hterm : ∀ e ∈ Finset.range 128,
      (∑ i : Fin 4, if scenarioMesh.elemNode e i = r then
        (∑ j : Fin 4, localK scenarioMesh oneFn e i j *
          linearProfile (scenarioMesh.elemNode e j)) else 0) =
      botContribution r e - botContribution r (e + 16) :=
    fun e _ => scenario_term_eq r e
  rw [Finset.sum_congr rfl hterm, Finset.sum_sub_distrib]
  have hshift : (∑ e ∈ Finset.range 128, botContribution r (e + 16)) =
      ∑ e ∈ Finset.Ico 16 144, botContribution r e := by
    rw [Finset.sum_Ico_eq_sum_range]
    refine Finset.sum_congr (by norm_num) fun e _ => by rw [Nat.add_comm]
  rw [hshift]
  have hsplit1 : (∑ e ∈ Finset.range 128, botContribution r e) =
      (∑ e ∈ Finset.range 16, botContribution r e) +
        ∑ e ∈ Finset.Ico 16 128, botContribution r e := by
    rw [Finset.range_eq_Ico]
    exact (Finset.sum_Ico_consecutive _ (by norm_num : (0:ℕ) ≤ 16)
      (by norm_num : (16:ℕ) ≤ 128)).symm
  have hsplit2 : (∑ e ∈ Finset.Ico 16 144, botContribution r e) =
      (∑ e ∈ Finset.Ico 16 128, botContribution r e) +
        ∑ e ∈ Finset.Ico 128 144, botContribution r e :=
    (Finset.sum_Ico_consecutive _ (by norm_num : (16:ℕ) ≤ 128)
      (by norm_num : (128:ℕ) ≤ 144)).symm
  have hlow : ∀ e ∈ Finset.range 16, botContribution r e = 0 := by
    intro e he
    rw [Finset.mem_range] at he
    obtain ⟨h0, h1, _, _⟩ := scenario_elemNode_eq e
    rw [botContribution, if_neg (by omega), if_neg (by omega), add_zero]
  have hhigh : ∀ e ∈ Finset.Ico 128 144, botContribution r e = 0 := by
    intro e he
    rw [Finset.mem_Ico] at he
    obtain ⟨h0, h1, _, _⟩ := scenario_elemNode_eq e
    rw [botContribution, if_neg (by omega), if_neg (by omega), add_zero]
  rw [hsplit1, hsplit2, Finset.sum_eq_zero hlow, Finset.sum_eq_zero hhigh]
  ring

theorem scenario_profile_dofs :
    ∀ d ∈ scenarioSpec.dofs, linearProfile d = scenarioField d := by
  intro d hd
  rw [scenario_dofs_mem] at hd
  rw [linearProfile, scenarioField]
  rcases hd with h | h
  · rw [if_pos h, show d / 17 = 0 from by omega]
    norm_num
  · rw [if_neg (by omega), show d / 17 = 8 from by omega]
    norm_num

theorem scenario_elemNode_lt :
    ∀ e ∈ Finset.range scenarioMesh.elemCount, ∀ i : Fin 4,
      scenarioMesh.elemNode e i < scenarioSystem.n := by
  intro e he i
  rw [Finset.mem_range] at he
  obtain ⟨h0, h1, h2, h3⟩ := scenario_elemNode_eq e
  have hec : scenarioMesh.elemCount = 128 := rfl
  have hn : scenarioSystem.n = 153 := rfl
  rw [hn]
  rw [hec] at he
  fin_cases i
  · show scenarioMesh.elemNode e 0 < 153
    omega
  · show scenarioMesh.elemNode e 1 < 153
    omega
  · show scenarioMesh.elemNode e 2 < 153
    omega
  · show scenarioMesh.elemNode e 3 < 153
    omega

/-- The linear profile `T = 1 − y` solves the constrained scenario system. -/
theorem scenario_solves :
    SolvesSystem (dirichletSystem scenarioSystem scenarioSpec) linearProfile := by
  rw [solves_dirichlet_iff _ _ scenario_dofs_sub]
  refine ⟨scenario_profile_dofs, ?_⟩
  intro r hrn hr
  have hmask : ∀ c, (if c ∈ scenarioSpec.dofs then scenarioSpec.val c
      else linearProfile c) = linearProfile c := by
    intro c
    by_cases hc : c ∈ scenarioSpec.dofs
    · rw [if_pos hc]
      exact (scenario_profile_dofs c hc).symm
    · rw [if_neg hc]
  simp only [hmask]
  have hb : scenarioSystem.b r = 0 := globalF_zero scenarioMesh r
  rw [hb]
  have hA : (∑ c ∈ Finset.range scenarioSystem.n,
      scenarioSystem.A r c * linearProfile c) =
      ∑ e ∈ Finset.range scenarioMesh.elemCount, ∑ i : Fin 4,
        if scenarioMesh.elemNode e i = r then
          (∑ j : Fin 4, localK scenarioMesh oneFn e i j *
            linearProfile (scenarioMesh.elemNode e j)) else 0 :=
    matvec_globalK scenarioMesh oneFn scenario_elemNode_lt linearProfile r
  rw [hA]
  have hrr : 17 ≤ r ∧ r ≤ 135 := by
    rw [scenario_dofs_mem] at hr
    have hn : scenarioSystem.n = 153 := rfl
    rw [hn] at hrn
    omega
  exact scenario_residual r hrr.1 hrr.2

/-! ### Uniqueness of the constrained solution -/

theorem KC_quadform (u : Fin 4 → ℚ) :
    (∑ i : Fin 4, ∑ j : Fin 4, u i * KC i j * u j) =
      ((u 0 - u 1)^2 + (u 1 - u 2)^2 + (u 2 - u 3)^2 + (u 3 - u 0)^2 +
       3*(u 0 - u 2)^2 + 3*(u 1 - u 3)^2) / 8 := by
  simp only [Fin.sum_univ_four]
  norm_num [KC, finVal_zero, finVal_one, finVal_two, finVal_three]
  ring

theorem KC_quadform_nonneg (u : Fin 4 → ℚ) :
    0 ≤ ∑ i : Fin 4, ∑ j : Fin 4, u i * KC i j * u j := by
  rw [KC_quadform]
  positivity

theorem KC_quadform_zero {u : Fin 4 → ℚ}
    (h : (∑ i : Fin 4, ∑ j : Fin 4, u i * KC i j * u j) = 0) :
    u 1 = u 0 ∧ u 2 = u 0 ∧ u 3 = u 0 := by
  rw [KC_quadform] at h
  have h8 : (u 0 - u 1)^2 + (u 1 - u 2)^2 + (u 2 - u 3)^2 + (u 3 - u 0)^2 +
      3*(u 0 - u 2)^2 + 3*(u 1 - u 3)^2 = 0 := by linarith
  have e1 : (u 0 - u 1)^2 = 0 := by
    nlinarith [sq_nonneg (u 1 - u 2), sq_nonneg (u 2 - u 3), sq_nonneg (u 3 - u 0),
      sq_nonneg (u 0 - u 2), sq_nonneg (u 1 - u 3)]
  have e2 : (u 0 - u 2)^2 = 0 := by
    nlinarith [sq_nonneg (u 0 - u 1), sq_nonneg (u 1 - u 2), sq_nonneg (u 2 - u 3),
      sq_nonneg (u 3 - u 0), sq_nonneg (u 1 - u 3)]
  have e3 : (u 3 - u 0)^2 = 0 := by
    nlinarith [sq_nonneg (u 0 - u 1), sq_nonneg (u 1 - u 2), sq_nonneg (u 2 - u 3),
      sq_nonneg (u 0 - u 2), sq_nonneg (u 1 - u 3)]
  have f1 := pow_eq_zero_iff (n := 2) (by norm_num) |>.mp e1
  have f2 := pow_eq_zero_iff (n := 2) (by norm_num) |>.mp e2
  have f3 := pow_eq_zero_iff (n := 2) (by norm_num) |>.mp e3
  refine ⟨by linarith [sub_eq_zero.mp f1], by linarith [sub_eq_zero.mp f2],
    by linarith [sub_eq_zero.mp f3]⟩

/-- On a mesh row by mesh row, a field that is elementwise constant and zero
on the bottom wall is zero everywhere. -/
theorem scenario_propagate (v : ℕ → ℚ) (hbot : ∀ d < 17, v d = 0)
    (helem : ∀ e < 128,
      v (scenarioMesh.elemNode e 1) = v (scenarioMesh.elemNode e 0) ∧
      v (scenarioMesh.elemNode e 2) = v (scenarioMesh.elemNode e 0) ∧
      v (scenarioMesh.elemNode e 3) = v (scenarioMesh.elemNode e 0)) :
    ∀ j ≤ 8, ∀ i ≤ 16, v (j * 17 + i) = 0 := by
  intro j
  induction j with
  | zero =>
    intro _ i hi
    exact hbot _ (by omega)
  | succ j ih =>
    intro hj i hi
    by_cases hI : i ≤ 15
    · have he : j * 16 + i < 128 := by omega
      obtain ⟨g0, _, _, g3⟩ := scenario_elemNode_eq (j * 16 + i)
      have h0 : scenarioMesh.elemNode (j * 16 + i) 0 = j * 17 + i := by omega
      have h3 : scenarioMesh.elemNode (j * 16 + i) 3 = (j + 1) * 17 + i := by omega
      have h := (helem _ he).2.2
      rw [h3, h0] at h
      rw [h]
      exact ih (by omega) i (by omega)
    · have hi16 : i = 16 := by omega
      have he : j * 16 + 15 < 128 := by omega
      obtain ⟨g0, g1, g2, _⟩ := scenario_elemNode_eq (j * 16 + 15)
      have h1 : scenarioMesh.elemNode (j * 16 + 15) 1 = j * 17 + 16 := by omega
      have h2 : scenarioMesh.elemNode (j * 16 + 15) 2 = (j + 1) * 17 + 16 := by
        omega
      have ha := (helem _ he).1
      have hb := (helem _ he).2.1
      rw [h1] at ha
      rw [h2] at hb
      rw [hi16, hb, ← ha]
      exact ih (by omega) 16 (by omega)

/-- Any solution of the constrained scenario system agrees with the linear
profile at every DOF. -/
theorem scenario_unique (x : ℕ → ℚ)
    (hx : SolvesSystem (dirichletSystem scenarioSystem scenarioSpec) x) :
    ∀ r < scenarioSystem.n, x r = linearProfile r := by
  have hxc := (solves_dirichlet_iff _ _ scenario_dofs_sub x).mp hx
  have hstar := (solves_dirichlet_iff _ _ scenario_dofs_sub linearProfile).mp
    scenario_solves
  -- the difference field
  set v : ℕ → ℚ := fun r => x r - linearProfile r with hv
  have hvd : ∀ d ∈ scenarioSpec.dofs, v d = 0 := by
    intro d hd
    have h1 := hxc.1 d hd
    have h2 := hstar.1 d hd
    simp only [hv]
    rw [h1, h2]
    ring
  -- every unconstrained row of the assembled operator annihilates v
  have hrow : ∀ r < scenarioSystem.n, r ∉ scenarioSpec.dofs →
      (∑ c ∈ Finset.range scenarioSystem.n, scenarioSystem.A r c * v c) = 0 := by
    intro r hrn hr
    have h1 := hxc.2 r hrn hr
    have h2 := hstar.2 r hrn hr
    have hsplit : (∑ c ∈ Finset.range scenarioSystem.n, scenarioSystem.A r c *
        ((if c ∈ scenarioSpec.dofs then scenarioSpec.val c else x c) -
         (if c ∈ scenarioSpec.dofs then scenarioSpec.val c else linearProfile c)))
        = (∑ c ∈ Finset.range scenarioSystem.n, scenarioSystem.A r c *
            (if c ∈ scenarioSpec.dofs then scenarioSpec.val c else x c)) -
          ∑ c ∈ Finset.range scenarioSystem.n, scenarioSystem.A r c *
            (if c ∈ scenarioSpec.dofs then scenarioSpec.val c else linearProfile c) := by
      rw [← Finset.sum_sub_distrib]
      exact Finset.sum_congr rfl fun c _ => by ring
    have h3 : (∑ c ∈ Finset.range scenarioSystem.n, scenarioSystem.A r c *
        ((if c ∈ scenarioSpec.dofs then scenarioSpec.val c else x c) -
         (if c ∈ scenarioSpec.dofs then scenarioSpec.val c else linearProfile c)))
        = 0 := by
      rw [hsplit, h1, h2]
      ring
    rw [← h3]
    refine Finset.sum_congr rfl fun c _ => ?_
    by_cases hc : c ∈ scenarioSpec.dofs
    · rw [if_pos hc, if_pos hc]
      have := hvd c hc
      simp only [hv] at this ⊢
      rw [show x c - linearProfile c = 0 from this]
      ring
    · rw [if_neg hc, if_neg hc]
  -- the global quadratic form of v vanishes
  have hquad : (∑ r ∈ Finset.range scenarioSystem.n,
      v r * ∑ c ∈ Finset.range scenarioSystem.n, scenarioSystem.A r c * v c) = 0 := by
    apply Finset.sum_eq_zero
    intro r hrn
    rw [Finset.mem_range] at hrn
    by_cases hr : r ∈ scenarioSpec.dofs
    · rw [hvd r hr, zero_mul]
    · rw [hrow r hrn hr, mul_zero]
  have hAg : scenarioSystem.A = globalK scenarioMesh oneFn := rfl
  rw [hAg] at hquad
  rw [quadform_globalK scenarioMesh oneFn scenario_elemNode_lt v] at hquad
  -- each element's local quadratic form vanishes
  have hKC : ∀ e ∈ Finset.range scenarioMesh.elemCount,
      (∑ i : Fin 4, ∑ j : Fin 4, v (scenarioMesh.elemNode e i) *
        localK scenarioMesh oneFn e i j * v (scenarioMesh.elemNode e j)) =
      ∑ i : Fin 4, ∑ j : Fin 4, (fun k : Fin 4 => v (scenarioMesh.elemNode e k)) i *
        KC i j * (fun k : Fin 4 => v (scenarioMesh.elemNode e k)) j := by
    intro e _
    refine Finset.sum_congr rfl fun i _ => Finset.sum_congr rfl fun j _ => ?_
    rw [scenario_localK]
  rw [Finset.sum_congr rfl hKC] at hquad
  have hzero : ∀ e ∈ Finset.range scenarioMesh.elemCount,
      (∑ i : Fin 4, ∑ j : Fin 4, (fun k : Fin 4 => v (scenarioMesh.elemNode e k)) i *
        KC i j * (fun k : Fin 4 => v (scenarioMesh.elemNode e k)) j) = 0 :=
    (Finset.sum_eq_zero_iff_of_nonneg fun e _ =>
      KC_quadform_nonneg fun k => v (scenarioMesh.elemNode e k)).mp hquad
  have helem : ∀ e < 128,
      v (scenarioMesh.elemNode e 1) = v (scenarioMesh.elemNode e 0) ∧
      v (scenarioMesh.elemNode e 2) = v (scenarioMesh.elemNode e 0) ∧
      v (scenarioMesh.elemNode e 3) = v (scenarioMesh.elemNode e 0) := by
    intro e he
    have hmem : e ∈ Finset.range scenarioMesh.elemCount := by
      rw [Finset.mem_range]
      exact he
    exact KC_quadform_zero (hzero e hmem)
  have hbot : ∀ d < 17, v d = 0 := fun d hd =>
    hvd d ((scenario_dofs_mem d).mpr (Or.inl hd))
  have hall := scenario_propagate v hbot helem
  intro r hrn
  have hn : scenarioSystem.n = 153 := rfl
  rw [hn] at hrn
  have hr : v (r / 17 * 17 + r % 17) = 0 := hall (r / 17) (by omega) (r % 17)
    (by omega)
  rw [show r / 17 * 17 + r % 17 = r from by omega] at hr
  have : x r - linearProfile r = 0 := hr
  linarith

/-! ### The scenario integral and the main end-to-end theorem -/

theorem scenario_coord_y (r : ℕ) :
    (scenarioMesh.coord r).2 = ((r / 17 : ℕ) : ℚ) / 8 := by
  show (0 : ℚ) + ((r / 17 : ℕ) : ℚ) * scenarioMesh.hy = _
  rw [scenario_hy]
  ring

theorem scenario_integral : integrate scenarioMesh linearProfile = 1 := by
  have hrx : 0 < scenarioMesh.resX := by norm_num [scenarioMesh]
  have hd : ∀ e (ξ η : ℚ), scenarioMesh.detJ e ξ η = 1/256 := by
    intro e ξ η
    rw [Mesh.detJ_eq _ hrx e, scenario_hx, scenario_hy]
    norm_num
  have hElem : ∀ e ∈ Finset.range scenarioMesh.elemCount,
      (quadRule.map fun q => q.2.2 * interpAt scenarioMesh linearProfile e q.1 q.2.1 *
        scenarioMesh.detJ e q.1 q.2.1).sum =
      (2 - (2 * ((e / 16 : ℕ) : ℚ) + 1)/8)/128 := by
    intro e _
    obtain ⟨h0, h1, h2, h3⟩ := scenario_elemNode_eq e
    have d0 : scenarioMesh.elemNode e 0 / 17 = e / 16 := by omega
    have d1 : scenarioMesh.elemNode e 1 / 17 = e / 16 := by omega
    have d2 : scenarioMesh.elemNode e 2 / 17 = e / 16 + 1 := by omega
    have d3 : scenarioMesh.elemNode e 3 / 17 = e / 16 + 1 := by omega
    have hI : ∀ ξ η : ℚ, interpAt scenarioMesh linearProfile e ξ η =
        (shapeN 0 ξ η + shapeN 1 ξ η) * (1 - ((e / 16 : ℕ) : ℚ)/8) +
        (shapeN 2 ξ η + shapeN 3 ξ η) * (1 - (((e / 16 : ℕ) : ℚ) + 1)/8) := by
      intro ξ η
      rw [interpAt, Fin.sum_univ_four]
      simp only [linearProfile, d0, d1, d2, d3]
      push_cast
      ring
    simp only [quadRule, List.map_cons, List.map_nil, List.sum_cons,
      List.sum_nil, hI, hd]
    norm_num [shapeN, cornerSign]
    ring
  rw [integrate, Finset.sum_congr rfl hElem,
    show scenarioMesh.elemCount = 128 from rfl]
  simp only [Finset.sum_range_succ, Finset.sum_range_zero]
  norm_num

theorem integrate_congr (m : Mesh) (f g : ℕ → ℚ)
    (h : ∀ e ∈ Finset.range m.elemCount, ∀ i : Fin 4,
      f (m.elemNode e i) = g (m.elemNode e i)) :
    integrate m f = integrate m g := by
  rw [integrate, integrate]
  refine Finset.sum_congr rfl fun e he => ?_
  congr 1
  refine List.map_congr_left fun q _ => ?_
  rw [interpAt, interpAt]
  refine congrArg (· * m.detJ e q.1 q.2.1) (congrArg (q.2.2 * ·) ?_)
  exact Finset.sum_congr rfl fun i _ => by rw [h e he i]

/-- C1: in the notebook's end-to-end scenario — domain `[0,2]×[0,1]` at
resolution 16×8, diffusivity 1, zero source, Dirichlet value 1 on the bottom
wall and 0 on the top wall, side walls unconstrained — every solution of the
constrained system is the field `T = 1 − y`: linear in the vertical coordinate
and independent of the horizontal one, and its domain integral divided by the
area 2 equals 1/2. -/
theorem steady_state_heat_scenario (sys' : LinSys) (x : ℕ → ℚ)
    (hok : applyDirichlet scenarioSystem scenarioSpec = .ok sys')
    (hx : SolvesSystem sys' x) :
    (∀ r < scenarioMesh.nodeCount, x r = 1 - (scenarioMesh.coord r).2) ∧
    integrate scenarioMesh x / 2 = 1/2 := by
  obtain ⟨hsub, rfl⟩ := applyDirichlet_inv hok
  have huniq := scenario_unique x hx
  have hnn : scenarioSystem.n = scenarioMesh.nodeCount := rfl
  constructor
  · intro r hrn
    rw [huniq r (by rw [hnn]; exact hrn), linearProfile, scenario_coord_y]
  · have hcong : integrate scenarioMesh x = integrate scenarioMesh linearProfile := by
      apply integrate_congr
      intro e he i
      exact huniq _ (scenario_elemNode_lt e he i)
    rw [hcong, scenario_integral]

/-- Witness for C1: the constrained scenario system, its solution
`linearProfile`, and the verified average value. -/
theorem steady_state_heat_scenario_witness :
    applyDirichlet scenarioSystem scenarioSpec =
      .ok (dirichletSystem scenarioSystem scenarioSpec) ∧
    SolvesSystem (dirichletSystem scenarioSystem scenarioSpec) linearProfile ∧
    integrate scenarioMesh linearProfile / 2 = 1/2 := by
  have hok := applyDirichlet_ok scenarioSystem scenarioSpec scenario_dofs_sub
  exact ⟨hok, scenario_solves,
    (steady_state_heat_scenario _ linearProfile hok scenario_solves).2⟩

end HeatFE
